import Mathlib

/-
Shallow embedding of the GIndexSet range-set engine from glib/gindexset.c
(with the public contract from glib/gindexset.h).

Machine integers: the C code works on `guint` (32-bit unsigned).  We model a
guint value as a `Nat` and insert `% 4294967296` exactly where the C code
performs arithmetic that can wrap (additions computing the exclusive upper
bound of a range, unsigned subtractions, length accumulations).  Comparisons
on already-reduced values translate directly.

The dynamic array of GRange values (a GArray) is modeled as `List GRange`;
`g_array_append_val`, `g_array_insert_val`, `g_array_remove_index` and
in-place element updates become the list operations `++ [x]`, `arrInsert`,
`arrRemove` and `List.set`.
-/

namespace Glib

/-- Modulus of 32-bit unsigned arithmetic (`G_MAXUINT + 1`). -/
def U32 : Nat := 4294967296

/-- Sentinel from gindexset.h: `#define G_INDEX_SET_NOT_FOUND G_MAXINT`,
the maximum value of a 32-bit signed int, `2^31 - 1`. -/
def G_INDEX_SET_NOT_FOUND : Nat := 2147483647

/-- Unsigned 32-bit subtraction `a - b` as the C compiler computes it on
guint operands (both arguments already reduced below `U32`). -/
def gusub (a b : Nat) : Nat := (a % U32 + U32 - b % U32) % U32

/-- GRange from gindexset.h: a half-open interval described by a start
location and a length, both guint. -/
structure GRange where
  location : Nat
  length : Nat
  deriving DecidableEq

/-- g_range_get_max: `range->location + range->length`, guint addition. -/
def g_range_get_max (r : GRange) : Nat := (r.location + r.length) % U32

/-- g_range_contains_location: `location >= range->location && location <
(range->location + range->length)`, with the guint addition. -/
def g_range_contains_location (r : GRange) (loc : Nat) : Bool :=
  decide (r.location ≤ loc) && decide (loc < (r.location + r.length) % U32)

/-- Model of `g_array_insert_val` at position `n` (`n ≤ length`). -/
def arrInsert (l : List GRange) (n : Nat) (x : GRange) : List GRange :=
  l.take n ++ x :: l.drop n

/-- Model of `g_array_remove_index` at position `n` (`n < length`). -/
def arrRemove (l : List GRange) (n : Nat) : List GRange :=
  l.take n ++ l.drop (n + 1)

/-- Binary-search loop of g_index_set_get_position.  The C loop is
`for (pos = upper / 2; upper != lower; pos = (upper + lower) / 2)` with body:
if the index is below the range at `pos` shrink `upper` to `pos`, if it is
above `location + length` grow `lower` to `pos + 1`, otherwise break.  The
updates of `pos` use the already-updated bounds.  The loop always terminates
because `upper - lower` strictly decreases, so a fuel of `upper - lower + 1`
(we pass `length + 1`) is never exhausted. -/
def getPositionBin (l : List GRange) (idx : Nat) :
    Nat → Nat → Nat → Nat → Nat
  | 0, _, _, pos => pos
  | fuel + 1, lower, upper, pos =>
    if upper = lower then pos
    else
      let r := l.getD pos ⟨0, 0⟩
      if idx < r.location then
        getPositionBin l idx fuel lower pos ((pos + lower) / 2)
      else if idx > (r.location + r.length) % U32 then
        getPositionBin l idx fuel (pos + 1) upper ((upper + pos + 1) / 2)
      else pos

/-- Linear skip loop of g_index_set_get_position: `while (pos < len && index_
>= g_range_get_max (range at pos)) pos += 1`.  The loop runs at most
`length - pos` times, so the fuel of `length + 1` passed by the wrapper is
never exhausted. -/
def getPositionSkip (l : List GRange) (idx : Nat) : Nat → Nat → Nat
  | 0, pos => pos
  | fuel + 1, pos =>
    if pos < l.length then
      if g_range_get_max (l.getD pos ⟨0, 0⟩) ≤ idx then
        getPositionSkip l idx fuel (pos + 1)
      else pos
    else pos

/-- g_index_set_get_position: binary search followed by the skip loop. -/
def g_index_set_get_position (l : List GRange) (idx : Nat) : Nat :=
  getPositionSkip l idx (l.length + 1)
    (getPositionBin l idx (l.length + 1) 0 l.length (l.length / 2))

/-- Backward-coalescing loop of g_index_set_add_range_internal:
`while (pos > 0)` examine the range before `pos`; stop when it ends strictly
before the added range starts; otherwise absorb the entry at `pos` into it
(extending its length when the added range reaches further) and step back. -/
def coalesceBackward (l : List GRange) (pos : Nat) (range : GRange) :
    List GRange × Nat :=
  match pos with
  | 0 => (l, 0)
  | p + 1 =>
    let r := l.getD p ⟨0, 0⟩
    if g_range_get_max r < range.location then (l, p + 1)
    else
      let l' :=
        if g_range_get_max range ≤ g_range_get_max r then
          arrRemove l (p + 1)
        else
          arrRemove
            (l.set p ⟨r.location,
              (r.length + (g_range_get_max range - g_range_get_max r)) % U32⟩)
            (p + 1)
      coalesceBackward l' p range

/-- Forward-coalescing loop of g_index_set_add_range_internal:
`while (pos + 1 < len)` examine the range after `pos`; stop when it starts
strictly after the added range ends; otherwise remove it, extending the range
at `pos` when the removed one reached further.  Every iteration removes one
element from the store, so the fuel of `length` passed by the wrapper is
never exhausted. -/
def coalesceForwardF (range : GRange) : Nat → List GRange → Nat → List GRange
  | 0, l, _ => l
  | fuel + 1, l, pos =>
    if pos + 1 < l.length then
      let r := l.getD (pos + 1) ⟨0, 0⟩
      if g_range_get_max range < r.location then l
      else
        let l' := arrRemove l (pos + 1)
        let l'' :=
          if g_range_get_max range < g_range_get_max r then
            let rp := l'.getD pos ⟨0, 0⟩
            l'.set pos ⟨rp.location,
              (rp.length + (g_range_get_max r - g_range_get_max range)) % U32⟩
          else l'
        coalesceForwardF range fuel l'' pos
    else l

/-- Entry point of the forward-coalescing loop. -/
def coalesceForward (l : List GRange) (pos : Nat) (range : GRange) :
    List GRange :=
  coalesceForwardF range l.length l pos

/-- g_index_set_add_range_internal: ignore empty ranges, locate the insertion
position (stepping past a range that already contains the start location),
insert a copy, then coalesce backward and forward. -/
def addRangeInternal (l : List GRange) (range : GRange) : List GRange :=
  if range.length = 0 then l
  else
    let pos := g_index_set_get_position l range.location
    let inserted :=
      if pos ≥ l.length then (l ++ [range], pos)
      else
        let r := l.getD pos ⟨0, 0⟩
        let pos' := if g_range_contains_location r range.location then pos + 1
                    else pos
        (arrInsert l pos' range, pos')
    let stepped := coalesceBackward inserted.1 inserted.2 range
    coalesceForward stepped.1 stepped.2 range

/-- GIndexSet: the range store plus the mutability flag.  The reference count
only governs deallocation and is not part of the functional state.  A set is
modeled only once initialized (`ranges` non-NULL). -/
structure GIndexSet where
  ranges : List GRange
  is_mutable : Bool
  deriving DecidableEq

/-- Result of a public mutation entry point: `violated` models a
`g_return_if_fail` precondition check firing (the call is refused and the set
is left untouched); `ok` carries the updated set. -/
inductive MutResult where
  | violated
  | ok (s : GIndexSet)
  deriving DecidableEq

/-- g_index_set_init (after g_index_set_alloc): empty store, mutable. -/
def g_index_set_init : GIndexSet := ⟨[], true⟩

/-- g_index_set_make_immutable. -/
def g_index_set_make_immutable (s : GIndexSet) : GIndexSet :=
  { s with is_mutable := false }

/-- g_index_set_init_empty: clear and make immutable. -/
def g_index_set_init_empty : GIndexSet := ⟨[], false⟩

/-- g_index_set_init_with_index: clear, insert the singleton range, make
immutable. -/
def g_index_set_init_with_index (idx : Nat) : GIndexSet :=
  ⟨[⟨idx, 1⟩], false⟩

/-- g_index_set_init_with_indicesv: clear, add each index through
g_index_set_add_range_internal, make immutable. -/
def g_index_set_init_with_indicesv (indices : List Nat) : GIndexSet :=
  ⟨indices.foldl (fun acc i => addRangeInternal acc ⟨i, 1⟩) [], false⟩

/-- g_index_set_init_with_range: clear, add the range, make immutable. -/
def g_index_set_init_with_range (range : GRange) : GIndexSet :=
  ⟨addRangeInternal [] range, false⟩

/-- g_index_set_add_index: refused unless the set is mutable. -/
def g_index_set_add_index (s : GIndexSet) (idx : Nat) : MutResult :=
  if s.is_mutable then
    .ok { s with ranges := addRangeInternal s.ranges ⟨idx, 1⟩ }
  else .violated

/-- g_index_set_add_indicesv (and the vararg g_index_set_add_indices):
refused unless mutable, then each index added in order. -/
def g_index_set_add_indicesv (s : GIndexSet) (indices : List Nat) :
    MutResult :=
  if s.is_mutable then
    .ok { s with
          ranges := indices.foldl (fun acc i => addRangeInternal acc ⟨i, 1⟩)
            s.ranges }
  else .violated

/-- g_index_set_add_range: refused unless mutable. -/
def g_index_set_add_range (s : GIndexSet) (range : GRange) : MutResult :=
  if s.is_mutable then
    .ok { s with ranges := addRangeInternal s.ranges range }
  else .violated

/-- g_index_set_add_set: refused unless mutable, then every stored range of
the other set added in order. -/
def g_index_set_add_set (s : GIndexSet) (other : GIndexSet) : MutResult :=
  if s.is_mutable then
    .ok { s with
          ranges := other.ranges.foldl (fun acc r => addRangeInternal acc r)
            s.ranges }
  else .violated

/-- g_index_set_remove_range (static).  The body of the source function only
checks for an empty store and computes a position (of a variable `index_`
that the function does not even declare); it returns without modifying the
store in every case, so the store is unchanged. -/
def removeRange (l : List GRange) (_range : GRange) : List GRange := l

/-- g_index_set_remove_index: only checks the set for NULL (no mutability
check) and forwards a singleton range to the remove_range stub. -/
def g_index_set_remove_index (s : GIndexSet) (idx : Nat) : MutResult :=
  .ok { s with ranges := removeRange s.ranges ⟨idx, 1⟩ }

/-- g_index_set_get_size: guint accumulation of the stored lengths. -/
def g_index_set_get_size (l : List GRange) : Nat :=
  l.foldl (fun acc r => (acc + r.length) % U32) 0

/-- g_index_set_get_first_index: location of the first stored range, or the
sentinel on an empty store. -/
def g_index_set_get_first_index (l : List GRange) : Nat :=
  if l.length = 0 then G_INDEX_SET_NOT_FOUND
  else (l.getD 0 ⟨0, 0⟩).location

/-- g_index_set_get_last_index: `g_range_get_max (last) - 1` in guint
arithmetic, or the sentinel on an empty store. -/
def g_index_set_get_last_index (l : List GRange) : Nat :=
  if l.length = 0 then G_INDEX_SET_NOT_FOUND
  else gusub (g_range_get_max (l.getD (l.length - 1) ⟨0, 0⟩)) 1

/-- g_index_set_contains_index: resolve the position, check containment. -/
def g_index_set_contains_index (l : List GRange) (idx : Nat) : Bool :=
  if l.length = 0 then false
  else
    let pos := g_index_set_get_position l idx
    if pos ≥ l.length then false
    else g_range_contains_location (l.getD pos ⟨0, 0⟩) idx

/-- g_index_set_contains_range: empty query ranges are always contained; a
query whose guint upper bound would cross the sentinel is refused; otherwise
the single range at the resolved position must contain both endpoints. -/
def g_index_set_contains_range (l : List GRange) (range : GRange) : Bool :=
  if range.length = 0 then true
  else if range.location > gusub G_INDEX_SET_NOT_FOUND range.length then false
  else if l.length = 0 then false
  else
    let pos := g_index_set_get_position l range.location
    if pos ≥ l.length then false
    else
      let r := l.getD pos ⟨0, 0⟩
      g_range_contains_location r range.location &&
        g_range_contains_location r (gusub (g_range_get_max range) 1)

/-- Predicates of g_index_set_get_index. -/
inductive GIndexSetPredicate where
  | lessThan
  | lessThanOrEqual
  | greaterThanOrEqual
  | greaterThan
  deriving DecidableEq

/-- Shared tail of the GREATER_THAN / GREATER_THAN_OR_EQUAL cases of
g_index_set_get_index (the C switch falls through). -/
def geBody (l : List GRange) (idx : Nat) : Nat :=
  if idx = G_INDEX_SET_NOT_FOUND then G_INDEX_SET_NOT_FOUND
  else
    let pos := g_index_set_get_position l idx
    if pos ≥ l.length then G_INDEX_SET_NOT_FOUND
    else
      let r := l.getD pos ⟨0, 0⟩
      if g_range_contains_location r idx then idx else r.location

/-- Shared tail of the LESS_THAN / LESS_THAN_OR_EQUAL cases of
g_index_set_get_index (the C switch falls through). -/
def leBody (l : List GRange) (idx : Nat) : Nat :=
  let pos := g_index_set_get_position l idx
  if pos ≥ l.length then G_INDEX_SET_NOT_FOUND
  else
    let r := l.getD pos ⟨0, 0⟩
    if g_range_contains_location r idx then idx
    else if pos = 0 then G_INDEX_SET_NOT_FOUND
    else gusub (g_range_get_max (l.getD (pos - 1) ⟨0, 0⟩)) 1

/-- g_index_set_get_index. -/
def g_index_set_get_index (l : List GRange) (p : GIndexSetPredicate)
    (idx : Nat) : Nat :=
  if l.length = 0 then G_INDEX_SET_NOT_FOUND
  else
    match p with
    | .greaterThan =>
        if (idx + 1) % U32 = G_INDEX_SET_NOT_FOUND then G_INDEX_SET_NOT_FOUND
        else geBody l ((idx + 1) % U32)
    | .greaterThanOrEqual => geBody l idx
    | .lessThan =>
        if idx = 0 then G_INDEX_SET_NOT_FOUND else leBody l (idx - 1)
    | .lessThanOrEqual => leBody l idx

/-- Inner loop of g_index_set_enumerate_in_range, forward direction: visit
`j`, `j+1`, ... up to (excluding) `stop`, stopping early when the callback
returns true.  Returns the visited indices and the early-stop flag.  The fuel
`stop - j` passed by the caller counts the loop iterations exactly: when it
reaches zero the loop condition `j < stop` is false and nothing is visited,
the same result the fuel-zero arm returns. -/
def enumInnerFwdF (f : Nat → Bool) : Nat → Nat → Nat → List Nat × Bool
  | 0, _, _ => ([], false)
  | fuel + 1, j, stop =>
    if j < stop then
      if f j then ([j], true)
      else
        let rest := enumInnerFwdF f fuel (j + 1) stop
        (j :: rest.1, rest.2)
    else ([], false)

/-- Entry point of the forward inner enumeration loop. -/
def enumInnerFwd (f : Nat → Bool) (j stop : Nat) : List Nat × Bool :=
  enumInnerFwdF f (stop - j) j stop

/-- Inner loop of g_index_set_enumerate_in_range, reverse direction: visit
`j`, `j-1`, ... down to (including) `stop`, breaking at zero, stopping early
when the callback returns true.  The fuel `j + 1` bounds the iterations (the
loop breaks at zero), so it is never exhausted. -/
def enumInnerRevF (f : Nat → Bool) : Nat → Nat → Nat → List Nat × Bool
  | 0, _, _ => ([], false)
  | fuel + 1, j, stop =>
    if stop ≤ j then
      if f j then ([j], true)
      else if j = 0 then ([j], false)
      else
        let rest := enumInnerRevF f fuel (j - 1) stop
        (j :: rest.1, rest.2)
    else ([], false)

/-- Entry point of the reverse inner enumeration loop. -/
def enumInnerRev (f : Nat → Bool) (j stop : Nat) : List Nat × Bool :=
  enumInnerRevF f (j + 1) j stop

/-- Outer loop of g_index_set_enumerate_in_range, forward direction: iterate
the positions from `i` up to (excluding) `stop`, enumerating each stored
range in full.  The fuel `stop - i` counts the iterations exactly. -/
def enumOuterFwdF (l : List GRange) (f : Nat → Bool) :
    Nat → Nat → Nat → List Nat
  | 0, _, _ => []
  | fuel + 1, i, stop =>
    if i < stop then
      let r := l.getD i ⟨0, 0⟩
      let inner := enumInnerFwd f r.location (g_range_get_max r)
      if inner.2 then inner.1
      else inner.1 ++ enumOuterFwdF l f fuel (i + 1) stop
    else []

/-- Entry point of the forward outer enumeration loop. -/
def enumOuterFwd (l : List GRange) (f : Nat → Bool) (i stop : Nat) :
    List Nat :=
  enumOuterFwdF l f (stop - i) i stop

/-- Outer loop of g_index_set_enumerate_in_range, reverse direction: iterate
the positions from `i` down to (including) `stop`, breaking at zero,
enumerating each stored range in full backwards.  The fuel `i + 1` bounds the
iterations (the loop breaks at zero), so it is never exhausted. -/
def enumOuterRevF (l : List GRange) (f : Nat → Bool) :
    Nat → Nat → Nat → List Nat
  | 0, _, _ => []
  | fuel + 1, i, stop =>
    if stop ≤ i then
      let r := l.getD i ⟨0, 0⟩
      let inner := enumInnerRev f (gusub (g_range_get_max r) 1) r.location
      if inner.2 then inner.1
      else if i = 0 then inner.1
      else inner.1 ++ enumOuterRevF l f fuel (i - 1) stop
    else []

/-- Entry point of the reverse outer enumeration loop. -/
def enumOuterRev (l : List GRange) (f : Nat → Bool) (i stop : Nat) :
    List Nat :=
  enumOuterRevF l f (i + 1) i stop

/-- g_index_set_enumerate_in_range: resolve the outer loop bounds from the
query range (resetting `start` to 0 when past the end) and run the outer
loop in the requested direction.  The callback is invoked once per returned
index, in list order. -/
def g_index_set_enumerate_in_range (l : List GRange) (range : GRange)
    (reverse : Bool) (f : Nat → Bool) : List Nat :=
  if l.length = 0 then []
  else if range.length = 0 then []
  else
    let start0 := g_index_set_get_position l range.location
    let start := if start0 ≥ l.length then 0 else start0
    let stop := g_index_set_get_position l (gusub (g_range_get_max range) 1)
    if reverse then enumOuterRev l f start stop
    else enumOuterFwd l f start stop

/-- g_index_set_enumerate: whole-set enumeration through
g_index_set_enumerate_in_range over `[first, last - first + 1]`. -/
def g_index_set_enumerate (l : List GRange) (reverse : Bool)
    (f : Nat → Bool) : List Nat :=
  let first := g_index_set_get_first_index l
  if first = G_INDEX_SET_NOT_FOUND then []
  else
    let last := g_index_set_get_last_index l
    g_index_set_enumerate_in_range l ⟨first, (gusub last first + 1) % U32⟩
      reverse f

/-- The public mutation operations of claim C1/C9. -/
inductive MutOp where
  | addIndex (i : Nat)
  | addIndexList (indices : List Nat)
  | addRange (r : GRange)
  | addOtherSet (other : GIndexSet)
  | removeIndex (i : Nat)
  deriving DecidableEq

/-- Unwrap a mutation result: when a precondition check fired, the caller
keeps the untouched set. -/
def mutTo (s : GIndexSet) : MutResult → GIndexSet
  | .violated => s
  | .ok t => t

/-- Apply one public mutation operation to a set. -/
def applyMutOp (s : GIndexSet) : MutOp → GIndexSet
  | .addIndex i => mutTo s (g_index_set_add_index s i)
  | .addIndexList indices => mutTo s (g_index_set_add_indicesv s indices)
  | .addRange r => mutTo s (g_index_set_add_range s r)
  | .addOtherSet other => mutTo s (g_index_set_add_set s other)
  | .removeIndex i => mutTo s (g_index_set_remove_index s i)

/-- An operation is bounded when every range it feeds to the store keeps its
guint upper bound below `2^32`, so no unsigned wraparound occurs. -/
def opBounded : MutOp → Prop
  | .addIndex i => i + 1 < U32
  | .addIndexList indices => ∀ i ∈ indices, i + 1 < U32
  | .addRange r => r.length = 0 ∨ r.location + r.length < U32
  | .addOtherSet other =>
      ∀ r ∈ other.ranges, r.length = 0 ∨ r.location + r.length < U32
  | .removeIndex _ => True

instance decOpBounded : DecidablePred opBounded := fun op => by
  cases op <;> simp only [opBounded] <;> infer_instance

/-- The four store invariants of claim C1: ranges sorted in ascending order
of location, any two stored ranges separated by a gap of at least one (hence
non-overlapping and non-adjacent), and no empty range. -/
def storeInvariant (l : List GRange) : Prop :=
  l.Pairwise (fun a b => a.location < b.location) ∧
  l.Pairwise (fun a b => a.location + a.length < b.location) ∧
  ∀ r ∈ l, 0 < r.length

instance decStoreInvariant : DecidablePred storeInvariant := fun l => by
  unfold storeInvariant; infer_instance

/-- Working invariant for the preservation proof: the gap condition plus
positive, non-wrapping lengths (the sorted condition follows). -/
def WFB (l : List GRange) : Prop :=
  l.Pairwise (fun a b => a.location + a.length < b.location) ∧
  ∀ r ∈ l, 0 < r.length ∧ r.location + r.length < U32

/-- Membership of an index in the set denoted by a range store. -/
def memberOf (l : List GRange) (x : Nat) : Prop :=
  ∃ r ∈ l, r.location ≤ x ∧ x < r.location + r.length

/-- The callback that never signals early stop. -/
def neverStop : Nat → Bool := fun _ => false

/-! ### Helper lemmas -/

theorem getD_of_lt (l : List GRange) (n : Nat) (d : GRange)
    (h : n < l.length) : l.getD n d = l.get ⟨n, h⟩ := by
  rw [List.getD_eq_get?, List.get?_eq_get h]; rfl

theorem getD_append_mid (A : List GRange) (x : GRange) (B : List GRange)
    (d : GRange) : (A ++ x :: B).getD A.length d = x := by
  induction A with
  | nil => rfl
  | cons a t ih => simpa [List.getD] using ih

theorem set_append_mid (A : List GRange) (x y : GRange) (B : List GRange) :
    (A ++ x :: B).set A.length y = A ++ y :: B := by
  induction A with
  | nil => rfl
  | cons a t ih => simpa [List.set] using ih

theorem arrInsert_append (A B : List GRange) (x : GRange) :
    arrInsert (A ++ B) A.length x = A ++ x :: B := by
  unfold arrInsert
  rw [List.take_left, List.drop_left]

theorem arrRemove_append (A : List GRange) (x : GRange) (B : List GRange) :
    arrRemove (A ++ x :: B) A.length = A ++ B := by
  unfold arrRemove
  rw [List.take_left' rfl]
  rw [show A ++ x :: B = (A ++ [x]) ++ B by simp]
  rw [List.drop_left' (by simp)]

theorem take_append_get_cons_drop (l : List GRange) (p : Nat)
    (h : p < l.length) :
    l.take p ++ l.get ⟨p, h⟩ :: l.drop (p + 1) = l := by
  induction l generalizing p with
  | nil => simp at h
  | cons a t ih =>
      cases p with
      | zero => simp
      | succ q =>
          have hq : q < t.length := by simpa using h
          simpa [List.take, List.drop] using ih q hq

/-! ### Claim theorems: concrete evaluations and counterexamples -/

/-- C2 (code_bug evidence): g_index_set_remove_range is a stub that never
modifies the store, so g_index_set_remove_index deletes nothing: on the set
initialized with the range [0,10), removing index 0 leaves index 0 contained,
while the specified contract requires it to be deleted. -/
theorem g_index_set_remove_range_is_noop :
    (∀ (l : List GRange) (r : GRange), removeRange l r = l) ∧
    (∀ (s : GIndexSet) (i : Nat), g_index_set_remove_index s i = .ok s) ∧
    g_index_set_contains_index
      (mutTo (g_index_set_init_with_range ⟨0, 10⟩)
        (g_index_set_remove_index (g_index_set_init_with_range ⟨0, 10⟩) 0)).ranges
      0 = true := by
  refine ⟨fun l r => rfl, fun s i => rfl, by decide⟩

/-- C3 (code_bug evidence): whole-set enumeration is broken.  On the set
initialized with the range [0,10) (size 10) the forward enumeration with a
callback that never signals stop invokes the callback zero times instead of
10, while the backward enumeration visits all ten indices; on the two-range
set {0,1,2,5} (size 4) the backward enumeration visits nothing.  So neither
direction visits size(set) indices in general and the reversed forward
sequence differs from the backward sequence. -/
theorem g_index_set_enumerate_coverage_broken :
    g_index_set_get_size (g_index_set_init_with_range ⟨0, 10⟩).ranges = 10 ∧
    g_index_set_enumerate (g_index_set_init_with_range ⟨0, 10⟩).ranges false
      neverStop = [] ∧
    g_index_set_enumerate (g_index_set_init_with_range ⟨0, 10⟩).ranges true
      neverStop = [9, 8, 7, 6, 5, 4, 3, 2, 1, 0] ∧
    (g_index_set_init_with_indicesv [0, 1, 2, 5]).ranges =
      [⟨0, 3⟩, ⟨5, 1⟩] ∧
    g_index_set_get_size [(⟨0, 3⟩ : GRange), ⟨5, 1⟩] = 4 ∧
    g_index_set_enumerate [(⟨0, 3⟩ : GRange), ⟨5, 1⟩] true neverStop = [] := by
  decide

/-- C4 (code_bug evidence): sub-range enumeration neither clips nor covers.
On the set containing [0,10), the forward enumeration restricted to the query
range of location 3 and length 4 visits no index at all (the claim requires
exactly 3,4,5,6), and restricted to location 3, length 8 it visits all of
0..9, surfacing 0,1,2 which lie outside the query range. -/
theorem g_index_set_enumerate_in_range_no_clipping :
    g_index_set_enumerate_in_range (g_index_set_init_with_range ⟨0, 10⟩).ranges
      ⟨3, 4⟩ false neverStop = [] ∧
    g_index_set_enumerate_in_range (g_index_set_init_with_range ⟨0, 10⟩).ranges
      ⟨3, 8⟩ false neverStop = [0, 1, 2, 3, 4, 5, 6, 7, 8, 9] := by
  decide

/-- C6: starting from a freshly initialized mutable set, adding index 5, then
0, 1, 2, then 7, 6, 2 through the single-index add operation yields the store
[0,3) and [5,8), size 6, first index 0, last index 7. -/
theorem g_index_set_add_scenario :
    (([5, 0, 1, 2, 7, 6, 2] : List Nat).map MutOp.addIndex).foldl applyMutOp
        g_index_set_init =
      ⟨[⟨0, 3⟩, ⟨5, 3⟩], true⟩ ∧
    g_index_set_get_size [(⟨0, 3⟩ : GRange), ⟨5, 3⟩] = 6 ∧
    g_index_set_get_first_index [(⟨0, 3⟩ : GRange), ⟨5, 3⟩] = 0 ∧
    g_index_set_get_last_index [(⟨0, 3⟩ : GRange), ⟨5, 3⟩] = 7 := by
  decide

/-- C10: a query range of length 0 is always reported as contained, for every
set, before the stored ranges are consulted. -/
theorem g_index_set_contains_range_empty_query (l : List GRange)
    (r : GRange) (h : r.length = 0) : g_index_set_contains_range l r = true := by
  unfold g_index_set_contains_range
  rw [if_pos h]

/-- C10 witness: the empty-range query on the empty set. -/
theorem g_index_set_contains_range_empty_query_witness :
    (⟨7, 0⟩ : GRange).length = 0 ∧
    g_index_set_contains_range [] ⟨7, 0⟩ = true :=
  ⟨rfl, g_index_set_contains_range_empty_query [] ⟨7, 0⟩ rfl⟩

/-- C1 counterexample: the public add operations perform no overflow check,
so adding the range of location 5, length 10 and then the range of location
2, length 4294967295 (whose guint upper bound wraps to 1) to a freshly
initialized mutable set leaves the store [ (2,4294967295), (5,10) ], which is
not sorted by true interval bounds: the first stored range reaches past the
second, violating the non-overlap and gap invariants of the claim. -/
theorem g_index_set_invariant_overflow_counterexample :
    (applyMutOp (applyMutOp g_index_set_init (.addRange ⟨5, 10⟩))
        (.addRange ⟨2, 4294967295⟩)).ranges =
      [⟨2, 4294967295⟩, ⟨5, 10⟩] ∧
    ¬ storeInvariant [(⟨2, 4294967295⟩ : GRange), ⟨5, 10⟩] := by
  decide

/-- C5 counterexample: the sentinel is G_MAXINT = 2^31 - 1, not the maximum
representable guint index 2^32 - 1 (the index 4294967294 above the sentinel
is storable and containable), and a single add-index call makes the sentinel
itself a contained index, because no mutation operation checks against it. -/
theorem g_index_set_sentinel_storable_counterexample :
    G_INDEX_SET_NOT_FOUND = 2147483647 ∧
    (2147483647 : Nat) < 4294967295 ∧
    g_index_set_contains_index
      (applyMutOp g_index_set_init (.addIndex G_INDEX_SET_NOT_FOUND)).ranges
      G_INDEX_SET_NOT_FOUND = true ∧
    g_index_set_contains_index
      (applyMutOp g_index_set_init (.addIndex 4294967294)).ranges
      4294967294 = true := by
  decide

/-- C7 counterexample: on the reachable store holding the single range
[0, 2^31+10), the query range of location 2^31-2 and length 4 resolves to
position 0 and that stored range contains both query endpoints, yet
g_index_set_contains_range returns false because the sentinel guard fires
first; so containment does not hold exactly when the resolved range contains
both endpoints. -/
theorem g_index_set_contains_range_sentinel_counterexample :
    (g_index_set_init_with_range ⟨0, 2147483658⟩).ranges =
      [⟨0, 2147483658⟩] ∧
    g_index_set_get_position [(⟨0, 2147483658⟩ : GRange)] 2147483646 = 0 ∧
    g_range_contains_location ⟨0, 2147483658⟩ 2147483646 = true ∧
    g_range_contains_location ⟨0, 2147483658⟩ 2147483649 = true ∧
    g_index_set_contains_range [(⟨0, 2147483658⟩ : GRange)]
      ⟨2147483646, 4⟩ = false := by
  decide

/-- C8 counterexample: on the reachable singleton set containing only index
0, the greater-than query at index 4294967295 returns 0, which neither
satisfies the predicate (0 is not greater than 4294967295) nor is the
sentinel; the claimed description (compute i+1, behave as greater-or-equal,
sentinel when no satisfying index exists) is violated because i+1 wraps to 0
in guint arithmetic. -/
theorem g_index_set_get_index_wrap_counterexample :
    (g_index_set_init_with_index 0).ranges = [⟨0, 1⟩] ∧
    g_index_set_get_index [(⟨0, 1⟩ : GRange)] .greaterThan 4294967295 = 0 ∧
    ¬ (4294967295 : Nat) < 0 ∧
    (0 : Nat) ≠ G_INDEX_SET_NOT_FOUND := by
  decide

/-- C9 counterexample: g_index_set_remove_index performs no mutability
precondition check: called on an immutable set it is not refused (it returns
successfully), it merely happens to leave the contents unchanged because
removal is unimplemented. -/
theorem g_index_set_remove_index_unchecked_counterexample :
    (g_index_set_init_with_range ⟨0, 10⟩).is_mutable = false ∧
    g_index_set_remove_index (g_index_set_init_with_range ⟨0, 10⟩) 3 =
      .ok (g_index_set_init_with_range ⟨0, 10⟩) := by
  decide

/-- C5 (amended): the sentinel is G_MAXINT = 2^31 - 1 (the maximum signed
int, not the maximum representable guint index).  g_index_set_contains_range
refuses cleanly, returning false without consulting the store, every
non-empty query whose length is at most the sentinel and whose upper bound
reaches past the sentinel; for query lengths above the sentinel the guint
guard subtraction G_INDEX_SET_NOT_FOUND - length wraps and such queries are
not refused: on the reachable store holding [0, 2^31) the query of location
0 and length 2^31 crosses the sentinel yet returns true. -/
theorem g_index_set_sentinel_amended :
    G_INDEX_SET_NOT_FOUND = 2147483647 ∧
    (∀ (l : List GRange) (r : GRange), 0 < r.length →
      r.length ≤ G_INDEX_SET_NOT_FOUND →
      G_INDEX_SET_NOT_FOUND < r.location + r.length →
      g_index_set_contains_range l r = false) ∧
    (g_index_set_init_with_range ⟨0, 2147483648⟩).ranges =
      [⟨0, 2147483648⟩] ∧
    gusub G_INDEX_SET_NOT_FOUND 2147483648 = 4294967295 ∧
    g_index_set_contains_range [(⟨0, 2147483648⟩ : GRange)]
      ⟨0, 2147483648⟩ = true := by
  refine ⟨rfl, fun l r h1 h2 h3 => ?_, by decide, by decide, by decide⟩
  unfold g_index_set_contains_range
  rw [if_neg (by omega), if_pos ?_]
  have : gusub G_INDEX_SET_NOT_FOUND r.length =
      G_INDEX_SET_NOT_FOUND - r.length := by
    unfold gusub G_INDEX_SET_NOT_FOUND U32 at *
    omega
  rw [this]
  unfold G_INDEX_SET_NOT_FOUND at *
  omega

/-- C5 witness: the guarded query of location 2147483640, length 100 on the
empty store is refused. -/
theorem g_index_set_sentinel_amended_witness :
    (0 : Nat) < 100 ∧ (100 : Nat) ≤ G_INDEX_SET_NOT_FOUND ∧
    G_INDEX_SET_NOT_FOUND < 2147483640 + 100 ∧
    g_index_set_contains_range [] ⟨2147483640, 100⟩ = false :=
  ⟨by decide, by decide, by decide,
    g_index_set_sentinel_amended.2.1 [] ⟨2147483640, 100⟩ (by decide)
      (by decide) (by decide)⟩

/-- C9 (amended): on an immutable set every add operation (add-index,
add-index-list, add-range, add-other-set) is refused as a precondition
violation; g_index_set_remove_index performs no mutability check and is not
refused, but it leaves the contents unchanged all the same because removal is
unimplemented; no listed mutation operation changes the stored ranges or
restores mutability, and reinitialization (g_index_set_init) yields a mutable
set again. -/
theorem g_index_set_immutable_refusal_amended (s : GIndexSet)
    (h : s.is_mutable = false) :
    (∀ i, g_index_set_add_index s i = .violated) ∧
    (∀ indices, g_index_set_add_indicesv s indices = .violated) ∧
    (∀ r, g_index_set_add_range s r = .violated) ∧
    (∀ t, g_index_set_add_set s t = .violated) ∧
    (∀ i, g_index_set_remove_index s i = .ok s) ∧
    (∀ op, (applyMutOp s op).ranges = s.ranges ∧
      (applyMutOp s op).is_mutable = false) ∧
    g_index_set_init.is_mutable = true := by
  have hmut : s.is_mutable = false := h
  refine ⟨fun i => ?_, fun indices => ?_, fun r => ?_, fun t => ?_,
    fun i => rfl, fun op => ?_, rfl⟩
  · unfold g_index_set_add_index; rw [hmut]; rfl
  · unfold g_index_set_add_indicesv; rw [hmut]; rfl
  · unfold g_index_set_add_range; rw [hmut]; rfl
  · unfold g_index_set_add_set; rw [hmut]; rfl
  · cases op <;>
      simp [applyMutOp, mutTo, g_index_set_add_index, g_index_set_add_indicesv,
        g_index_set_add_range, g_index_set_add_set, g_index_set_remove_index,
        removeRange, hmut]

/-- C9 witness: the amended statement applied to the immutable set holding
[0,10). -/
theorem g_index_set_immutable_refusal_amended_witness :
    (g_index_set_init_with_range ⟨0, 10⟩).is_mutable = false ∧
    g_index_set_add_index (g_index_set_init_with_range ⟨0, 10⟩) 3 =
      .violated :=
  ⟨by decide,
    (g_index_set_immutable_refusal_amended (g_index_set_init_with_range ⟨0, 10⟩)
      (by decide)).1 3⟩

/-! ### Characterization of the position resolver on well-formed stores -/

theorem WFB_get_rel {l : List GRange} (h : WFB l) {q p : Nat}
    (hq : q < l.length) (hp : p < l.length) (hqp : q < p) :
    (l.get ⟨q, hq⟩).location + (l.get ⟨q, hq⟩).length <
      (l.get ⟨p, hp⟩).location :=
  (List.pairwise_iff_get.mp h.1) ⟨q, hq⟩ ⟨p, hp⟩ hqp

theorem getPositionBin_post (l : List GRange) (idx : Nat) (hWF : WFB l) :
    ∀ (fuel lower upper pos : Nat),
      lower ≤ upper → upper ≤ l.length → upper - lower ≤ fuel →
      lower ≤ pos → pos ≤ upper →
      (lower < upper → pos < upper) → (upper = lower → pos = lower) →
      (∀ q (hq : q < l.length), q < lower →
        (l.get ⟨q, hq⟩).location + (l.get ⟨q, hq⟩).length < idx) →
      getPositionBin l idx fuel lower upper pos ≤ l.length ∧
        ∀ q (hq : q < l.length), q < getPositionBin l idx fuel lower upper pos →
          (l.get ⟨q, hq⟩).location + (l.get ⟨q, hq⟩).length ≤ idx := by
  intro fuel
  induction fuel with
  | zero =>
      intro lower upper pos h1 h2 h3 h4 h5 h6 h7 hI
      have heq : upper = lower := by omega
      have hpos : pos = lower := h7 heq
      simp only [getPositionBin]
      exact ⟨by omega, fun q hq hql => le_of_lt (hI q hq (by omega))⟩
  | succ fuel ih =>
      intro lower upper pos h1 h2 h3 h4 h5 h6 h7 hI
      simp only [getPositionBin]
      by_cases heq : upper = lower
      · rw [if_pos heq]
        have hpos : pos = lower := h7 heq
        exact ⟨by omega, fun q hq hql => le_of_lt (hI q hq (by omega))⟩
      · rw [if_neg heq]
        have hlu : lower < upper := by omega
        have hpu : pos < upper := h6 hlu
        have hplen : pos < l.length := lt_of_lt_of_le hpu h2
        rw [getD_of_lt l pos _ hplen]
        by_cases hlt : idx < (l.get ⟨pos, hplen⟩).location
        · rw [if_pos hlt]
          exact ih lower pos ((pos + lower) / 2) (by omega) (by omega)
            (by omega) (by omega) (by omega) (by omega) (by omega) hI
        · rw [if_neg hlt]
          have hb := (hWF.2 _ (List.get_mem l pos hplen)).2
          rw [Nat.mod_eq_of_lt hb]
          by_cases hgt :
              idx > (l.get ⟨pos, hplen⟩).location + (l.get ⟨pos, hplen⟩).length
          · rw [if_pos hgt]
            refine ih (pos + 1) upper ((upper + pos + 1) / 2) (by omega)
              (by omega) (by omega) (by omega) (by omega) (by omega) (by omega)
              ?_
            intro q hq hql
            rcases Nat.lt_succ_iff_lt_or_eq.mp hql with hqp | rfl
            · have := WFB_get_rel hWF hq hplen hqp
              omega
            · omega
          · rw [if_neg hgt]
            refine ⟨by omega, fun q hq hql => ?_⟩
            have := WFB_get_rel hWF hq hplen hql
            omega

theorem getPositionSkip_post (l : List GRange) (idx : Nat) (hWF : WFB l) :
    ∀ (fuel pos : Nat), pos ≤ l.length → l.length - pos < fuel →
      (∀ q (hq : q < l.length), q < pos →
        (l.get ⟨q, hq⟩).location + (l.get ⟨q, hq⟩).length ≤ idx) →
      getPositionSkip l idx fuel pos ≤ l.length ∧
      (∀ q (hq : q < l.length), q < getPositionSkip l idx fuel pos →
        (l.get ⟨q, hq⟩).location + (l.get ⟨q, hq⟩).length ≤ idx) ∧
      (getPositionSkip l idx fuel pos < l.length →
        idx < (l.getD (getPositionSkip l idx fuel pos) ⟨0, 0⟩).location +
          (l.getD (getPositionSkip l idx fuel pos) ⟨0, 0⟩).length) := by
  intro fuel
  induction fuel with
  | zero => intro pos h1 h2; omega
  | succ fuel ih =>
      intro pos h1 h2 hbefore
      simp only [getPositionSkip]
      by_cases hp : pos < l.length
      · rw [if_pos hp]
        rw [getD_of_lt l pos _ hp]
        have hb := (hWF.2 _ (List.get_mem l pos hp)).2
        unfold g_range_get_max
        rw [Nat.mod_eq_of_lt hb]
        by_cases hle :
            (l.get ⟨pos, hp⟩).location + (l.get ⟨pos, hp⟩).length ≤ idx
        · rw [if_pos hle]
          refine ih (pos + 1) (by omega) (by omega) ?_
          intro q hq hql
          rcases Nat.lt_succ_iff_lt_or_eq.mp hql with hqp | rfl
          · exact hbefore q hq hqp
          · exact hle
        · rw [if_neg hle]
          refine ⟨le_of_lt hp, hbefore, fun h => ?_⟩
          rw [getD_of_lt l pos _ hp]
          omega
      · rw [if_neg hp]
        exact ⟨h1, hbefore, fun h => absurd h hp⟩

theorem getPosition_post (l : List GRange) (hWF : WFB l) (idx : Nat) :
    g_index_set_get_position l idx ≤ l.length ∧
    (∀ q (hq : q < l.length), q < g_index_set_get_position l idx →
      (l.get ⟨q, hq⟩).location + (l.get ⟨q, hq⟩).length ≤ idx) ∧
    (g_index_set_get_position l idx < l.length →
      idx < (l.getD (g_index_set_get_position l idx) ⟨0, 0⟩).location +
        (l.getD (g_index_set_get_position l idx) ⟨0, 0⟩).length) := by
  unfold g_index_set_get_position
  obtain ⟨hb1, hb2⟩ := getPositionBin_post l idx hWF (l.length + 1) 0 l.length
    (l.length / 2) (by omega) (le_refl _) (by omega) (by omega) (by omega)
    (by omega) (by omega) (fun q hq h => absurd h (by omega))
  exact getPositionSkip_post l idx hWF (l.length + 1) _ hb1 (by omega) hb2
/-! ### Backward coalescing on well-formed decompositions -/

theorem coalesceBackward_stop (C : List GRange) (x : GRange) (B : List GRange)
    (range : GRange)
    (hCb : ∀ a ∈ C, a.location + a.length < U32)
    (hlast : ∀ a ∈ C.getLast?, a.location + a.length < range.location) :
    coalesceBackward (C ++ x :: B) C.length range = (C ++ x :: B, C.length) := by
  rcases List.eq_nil_or_concat' C with rfl | ⟨C0, a, rfl⟩
  · rfl
  · have hmem : a ∈ C0 ++ [a] := by simp
    have hsa : a.location + a.length < range.location := by
      have := hlast a (by rw [List.getLast?_concat]; simp)
      exact this
    have hb : a.location + a.length < U32 := hCb a hmem
    have hlen : (C0 ++ [a]).length = C0.length + 1 := by simp
    rw [hlen]
    simp only [coalesceBackward]
    have hgd : ((C0 ++ [a]) ++ x :: B).getD C0.length ⟨0, 0⟩ = a := by
      rw [show (C0 ++ [a]) ++ x :: B = C0 ++ a :: (x :: B) by simp]
      exact getD_append_mid C0 a (x :: B) ⟨0, 0⟩
    rw [hgd]
    have hgm : g_range_get_max a = a.location + a.length :=
      Nat.mod_eq_of_lt hb
    rw [hgm, if_pos hsa]

theorem coalesceBackward_absorb (C0 : List GRange) (a x : GRange)
    (B : List GRange) (range : GRange)
    (hC0b : ∀ c ∈ C0, c.location + c.length < U32)
    (hab : a.location + a.length < U32)
    (ha : range.location ≤ a.location + a.length)
    (habs : g_range_get_max range ≤ a.location + a.length)
    (hlast : ∀ c ∈ C0.getLast?, c.location + c.length < range.location) :
    coalesceBackward (C0 ++ a :: x :: B) (C0.length + 1) range =
      (C0 ++ a :: B, C0.length) := by
  simp only [coalesceBackward]
  have hgd : (C0 ++ a :: x :: B).getD C0.length ⟨0, 0⟩ = a :=
    getD_append_mid C0 a (x :: B) ⟨0, 0⟩
  rw [hgd]
  have hgm : g_range_get_max a = a.location + a.length :=
    Nat.mod_eq_of_lt hab
  rw [hgm, if_neg (by omega), if_pos habs]
  have hrem : arrRemove (C0 ++ a :: x :: B) (C0.length + 1) = C0 ++ a :: B := by
    rw [show C0 ++ a :: x :: B = (C0 ++ [a]) ++ x :: B by simp,
      show C0.length + 1 = (C0 ++ [a]).length by simp,
      arrRemove_append]
    simp
  rw [hrem]
  exact coalesceBackward_stop C0 a B range hC0b hlast

theorem coalesceBackward_extend (C0 : List GRange) (a x : GRange)
    (B : List GRange) (range : GRange)
    (hC0b : ∀ c ∈ C0, c.location + c.length < U32)
    (hab : a.location + a.length < U32)
    (hrb : range.location + range.length < U32)
    (ha : range.location ≤ a.location + a.length)
    (hlt : a.location + a.length < range.location + range.length)
    (hlast : ∀ c ∈ C0.getLast?, c.location + c.length < range.location) :
    coalesceBackward (C0 ++ a :: x :: B) (C0.length + 1) range =
      (C0 ++ (⟨a.location, range.location + range.length - a.location⟩ :
          GRange) :: B,
       C0.length) := by
  simp only [coalesceBackward]
  have hgd : (C0 ++ a :: x :: B).getD C0.length ⟨0, 0⟩ = a :=
    getD_append_mid C0 a (x :: B) ⟨0, 0⟩
  rw [hgd]
  have hgm : g_range_get_max a = a.location + a.length :=
    Nat.mod_eq_of_lt hab
  have hgmr : g_range_get_max range = range.location + range.length :=
    Nat.mod_eq_of_lt hrb
  rw [hgm, hgmr, if_neg (by omega), if_neg (by omega)]
  have hset : (C0 ++ a :: x :: B).set C0.length
      ⟨a.location,
        (a.length + (range.location + range.length -
          (a.location + a.length))) % U32⟩ =
      C0 ++ (⟨a.location, range.location + range.length - a.location⟩ :
        GRange) :: x :: B := by
    rw [set_append_mid]
    have harith : a.length + (range.location + range.length -
        (a.location + a.length)) = range.location + range.length - a.location :=
      by omega
    rw [harith, Nat.mod_eq_of_lt (by omega)]
  rw [hset]
  have hrem : arrRemove (C0 ++ (⟨a.location,
        range.location + range.length - a.location⟩ : GRange) :: x :: B)
      (C0.length + 1) =
      C0 ++ (⟨a.location, range.location + range.length - a.location⟩ :
        GRange) :: B := by
    rw [show C0 ++ (⟨a.location,
          range.location + range.length - a.location⟩ : GRange) :: x :: B =
        (C0 ++ [(⟨a.location, range.location + range.length - a.location⟩ :
          GRange)]) ++ x :: B by simp,
      show C0.length + 1 = (C0 ++ [(⟨a.location,
          range.location + range.length - a.location⟩ : GRange)]).length
        by simp,
      arrRemove_append]
    simp
  rw [hrem]
  exact coalesceBackward_stop C0 _ B range hC0b hlast

/-! ### Forward coalescing preserves the invariant -/

theorem coalesceForwardF_wf (C : List GRange) (range : GRange)
    (hrb : range.location + range.length < U32) :
    ∀ (fuel : Nat) (B : List GRange) (m : GRange),
      (C ++ m :: B).length ≤ fuel →
      List.Pairwise (fun a b => a.location + a.length < b.location)
        (C ++ [m]) →
      (∀ y ∈ C ++ [m], 0 < y.length ∧ y.location + y.length < U32) →
      List.Pairwise (fun a b => a.location + a.length < b.location) B →
      (∀ b ∈ B, 0 < b.length ∧ b.location + b.length < U32) →
      (∀ c ∈ C, ∀ b ∈ B, c.location + c.length < b.location) →
      (∀ b ∈ B, range.location < b.location) →
      (m.location + m.length = range.location + range.length ∨
        (range.location + range.length < m.location + m.length ∧
         ∀ b ∈ B, m.location + m.length < b.location)) →
      WFB (coalesceForwardF range fuel (C ++ m :: B) C.length) := by
  intro fuel
  induction fuel with
  | zero =>
      intro B m hfuel
      simp at hfuel
  | succ fuel ih =>
      intro B m hfuel hCm hCmB hB hBb hcross hBloc hdich
      simp only [coalesceForwardF]
      cases B with
      | nil =>
          rw [if_neg (by simp)]
          exact ⟨hCm, hCmB⟩
      | cons b B2 =>
          have hc : C.length + 1 < (C ++ m :: b :: B2).length := by simp
          rw [if_pos hc]
          have hgd : (C ++ m :: b :: B2).getD (C.length + 1) ⟨0, 0⟩ = b := by
            rw [show C ++ m :: b :: B2 = (C ++ [m]) ++ b :: B2 by simp,
              show C.length + 1 = (C ++ [m]).length by simp]
            exact getD_append_mid (C ++ [m]) b B2 ⟨0, 0⟩
          rw [hgd]
          obtain ⟨hb0, hbU⟩ := hBb b (by simp)
          have hm0 : 0 < m.length ∧ m.location + m.length < U32 :=
            hCmB m (by simp)
          have hgmr : g_range_get_max range = range.location + range.length :=
            Nat.mod_eq_of_lt hrb
          have hgmb : g_range_get_max b = b.location + b.length :=
            Nat.mod_eq_of_lt hbU
          rw [hgmr, hgmb]
          obtain ⟨hBb2, hBloc2, hcross2⟩ :
              (∀ y ∈ B2, 0 < y.length ∧ y.location + y.length < U32) ∧
              (∀ y ∈ B2, range.location < y.location) ∧
              (∀ c ∈ C, ∀ y ∈ B2, c.location + c.length < y.location) := by
            refine ⟨fun y hy => hBb y (by simp [hy]),
              fun y hy => hBloc y (by simp [hy]),
              fun c hc y hy => hcross c hc y (by simp [hy])⟩
          have hBgap : ∀ y ∈ B2, b.location + b.length < y.location :=
            (List.pairwise_cons.mp hB).1
          have hB2 : List.Pairwise
              (fun a b => a.location + a.length < b.location) B2 :=
            (List.pairwise_cons.mp hB).2
          by_cases hbrk : range.location + range.length < b.location
          · rw [if_pos hbrk]
            constructor
            · rw [show C ++ m :: b :: B2 = C ++ [m] ++ b :: B2 by simp]
              rw [List.pairwise_append]
              refine ⟨hCm, ?_, ?_⟩
              · rw [List.pairwise_cons]
                exact ⟨hBgap, hB2⟩
              · intro y hy z hz
                rcases List.mem_append.mp hy with hyC | hyM
                · rcases List.mem_cons.mp hz with rfl | hz2
                  · exact hcross y hyC z (by simp)
                  · exact hcross y hyC z (by simp [hz2])
                · have hym : y = m := by simpa using hyM
                  subst hym
                  rcases List.mem_cons.mp hz with rfl | hz2
                  · rcases hdich with h | ⟨h1, h2⟩
                    · omega
                    · exact h2 z (by simp)
                  · rcases hdich with h | ⟨h1, h2⟩
                    · have := hBgap z hz2
                      omega
                    · exact h2 z (by simp [hz2])
            · intro y hy
              rcases List.mem_append.mp hy with hyC | hyB
              · exact hCmB y (by simp [hyC])
              · rcases List.mem_cons.mp hyB with rfl | hy2
                · exact hCmB y (by simp)
                · exact hBb y hy2
          · rw [if_neg hbrk]
            have hble : b.location ≤ range.location + range.length := by omega
            have HmEq : m.location + m.length =
                range.location + range.length := by
              rcases hdich with h | ⟨h1, h2⟩
              · exact h
              · have := h2 b (by simp)
                omega
            have hrem : arrRemove (C ++ m :: b :: B2) (C.length + 1) =
                C ++ m :: B2 := by
              rw [show C ++ m :: b :: B2 = (C ++ [m]) ++ b :: B2 by simp,
                show C.length + 1 = (C ++ [m]).length by simp,
                arrRemove_append]
              simp
            rw [hrem]
            have hflen : (C ++ m :: B2).length ≤ fuel := by
              have h1 : (C ++ m :: b :: B2).length ≤ fuel + 1 := hfuel
              simp only [List.length_append, List.length_cons] at h1 ⊢
              omega
            by_cases hext :
                range.location + range.length < b.location + b.length
            · rw [if_pos hext]
              have hgd2 : (C ++ m :: B2).getD C.length ⟨0, 0⟩ = m :=
                getD_append_mid C m B2 ⟨0, 0⟩
              rw [hgd2]
              have hset : (C ++ m :: B2).set C.length
                  ⟨m.location, (m.length + (b.location + b.length -
                    (range.location + range.length))) % U32⟩ =
                  C ++ (⟨m.location,
                    b.location + b.length - m.location⟩ : GRange) :: B2 := by
                rw [set_append_mid]
                have harith : m.length + (b.location + b.length -
                    (range.location + range.length)) =
                    b.location + b.length - m.location := by omega
                rw [harith, Nat.mod_eq_of_lt (by omega)]
              rw [hset]
              have hflen2 : (C ++ (⟨m.location,
                  b.location + b.length - m.location⟩ : GRange) :: B2).length
                  ≤ fuel := by
                simpa using hflen
              refine ih B2 ⟨m.location, b.location + b.length - m.location⟩
                hflen2 ?_ ?_ hB2 hBb2 hcross2 hBloc2 ?_
              · rw [List.pairwise_append] at hCm ⊢
                refine ⟨hCm.1, List.pairwise_singleton _ _, ?_⟩
                intro y hy z hz
                have hz' : z = (⟨m.location,
                    b.location + b.length - m.location⟩ : GRange) := by
                  simpa using hz
                subst hz'
                exact hCm.2.2 y hy m (by simp)
              · intro y hy
                rcases List.mem_append.mp hy with hyC | hyM
                · exact hCmB y (by simp [hyC])
                · have hym : y = (⟨m.location,
                      b.location + b.length - m.location⟩ : GRange) := by
                    simpa using hyM
                  subst hym
                  refine ⟨by simp; omega, by simp; omega⟩
              · right
                refine ⟨by simp; omega, ?_⟩
                intro y hy
                have := hBgap y hy
                simp
                omega
            · rw [if_neg hext]
              refine ih B2 m hflen hCm hCmB hB2 hBb2 hcross2 hBloc2 ?_
              left
              exact HmEq

/-! ### The insertion algorithm preserves the invariant -/

theorem forall_mem_take_of_get {l : List GRange} {P : GRange → Prop} :
    ∀ {p : Nat},
      (∀ q (hq : q < l.length), q < p → P (l.get ⟨q, hq⟩)) →
      ∀ c ∈ l.take p, P c := by
  induction l with
  | nil => intro p h c hc; simp at hc
  | cons x t ih =>
      intro p h c hc
      cases p with
      | zero => simp at hc
      | succ q =>
          simp only [List.take] at hc
          rcases List.mem_cons.mp hc with rfl | hc2
          · exact h 0 (by simp) (by omega)
          · exact ih (fun i hi hiq => h (i + 1) (by simpa using hi)
              (by omega)) c hc2

theorem addRangeInternal_WFB (l : List GRange) (range : GRange)
    (hWF : WFB l)
    (hb : range.length = 0 ∨ range.location + range.length < U32) :
    WFB (addRangeInternal l range) := by
  by_cases h0 : range.length = 0
  · simpa [addRangeInternal, h0] using hWF
  have hbr : range.location + range.length < U32 := hb.resolve_left h0
  have hl0 : 0 < range.length := Nat.pos_of_ne_zero h0
  have hgmr : g_range_get_max range = range.location + range.length :=
    Nat.mod_eq_of_lt hbr
  obtain ⟨hple, hbefore, hat⟩ := getPosition_post l hWF range.location
  simp only [addRangeInternal, if_neg h0]
  set p := g_index_set_get_position l range.location with hpdef
  by_cases hge : p ≥ l.length
  · rw [if_pos hge]
    have hpl : p = l.length := le_antisymm hple hge
    rw [hpl]
    have hall : ∀ q (hq : q < l.length),
        (l.get ⟨q, hq⟩).location + (l.get ⟨q, hq⟩).length ≤ range.location :=
      fun q hq => hbefore q hq (by omega)
    have hallmem : ∀ c ∈ l,
        c.location + c.length ≤ range.location := by
      have := forall_mem_take_of_get (l := l) (p := l.length)
        (P := fun c => c.location + c.length ≤ range.location)
        (fun q hq _ => hall q hq)
      simpa using this
    rcases List.eq_nil_or_concat' l with rfl | ⟨C0, a, rfl⟩
    · have hbk : coalesceBackward ([] ++ [range]) ([] : List GRange).length
          range = ([range], 0) := rfl
      rw [hbk]
      have hfw : coalesceForward [range] 0 range = [range] := rfl
      simp only [hfw]
      exact ⟨List.pairwise_singleton _ _, by
        intro r hr
        simp at hr
        subst hr
        exact ⟨hl0, hbr⟩⟩
    · obtain ⟨ha0, haU⟩ := hWF.2 a (by simp)
      have hmemC0 : ∀ c ∈ C0, c ∈ C0 ++ [a] := fun c hc => by simp [hc]
      have hC0lt : ∀ c ∈ C0, c.location + c.length < range.location := by
        intro c hc
        have hgap : c.location + c.length < a.location := by
          have hpw := hWF.1
          rw [List.pairwise_append] at hpw
          exact hpw.2.2 c hc a (by simp)
        have hsa : a.location + a.length ≤ range.location :=
          hallmem a (by simp)
        omega
      have hsa : a.location + a.length ≤ range.location := hallmem a (by simp)
      have hlastC0 : ∀ c ∈ C0.getLast?,
          c.location + c.length < range.location :=
        fun c hc => hC0lt c (List.mem_of_mem_getLast? hc)
      have hboundsl : ∀ c ∈ C0 ++ [a], c.location + c.length < U32 :=
        fun c hc => (hWF.2 c hc).2
      rcases Nat.lt_or_ge (a.location + a.length) range.location with
        hstrict | hadj
      · have hbk := coalesceBackward_stop (C0 ++ [a]) range [] range hboundsl
          (by
            intro c hc
            rw [List.getLast?_concat] at hc
            simp at hc
            subst hc
            exact hstrict)
        rw [show (C0 ++ [a]) ++ [range] = (C0 ++ [a]) ++ range :: [] from rfl]
          at hbk
        rw [hbk]
        show WFB (coalesceForwardF range ((C0 ++ [a]) ++ range :: []).length
          ((C0 ++ [a]) ++ range :: []) (C0 ++ [a]).length)
        refine coalesceForwardF_wf (C0 ++ [a]) range hbr _ [] range
          (le_refl _) ?_ ?_ (by simp) (by simp) (by simp) (by simp)
          (Or.inl rfl)
        · rw [List.pairwise_append]
          refine ⟨hWF.1, List.pairwise_singleton _ _, ?_⟩
          intro y hy z hz
          simp at hz
          subst hz
          rcases List.mem_append.mp hy with hyC | hyA
          · exact hC0lt y hyC
          · simp at hyA
            subst hyA
            exact hstrict
        · intro y hy
          rcases List.mem_append.mp hy with hyl | hyr
          · exact hWF.2 y hyl
          · simp at hyr
            subst hyr
            exact ⟨hl0, hbr⟩
      · have heq : a.location + a.length = range.location := by omega
        have hbk := coalesceBackward_extend C0 a range [] range
          (fun c hc => (hWF.2 c (hmemC0 c hc)).2) haU hbr hadj (by omega)
          hlastC0
        rw [show (C0 ++ [a]) ++ [range] = C0 ++ a :: range :: [] by simp,
          show (C0 ++ [a]).length = C0.length + 1 by simp]
        rw [hbk]
        show WFB (coalesceForwardF range
          (C0 ++ (⟨a.location,
            range.location + range.length - a.location⟩ : GRange) :: []).length
          (C0 ++ (⟨a.location,
            range.location + range.length - a.location⟩ : GRange) :: [])
          C0.length)
        refine coalesceForwardF_wf C0 range hbr _ []
          ⟨a.location, range.location + range.length - a.location⟩
          (le_refl _) ?_ ?_ (by simp) (by simp) (by simp) (by simp) ?_
        · rw [List.pairwise_append]
          refine ⟨by
              have hpw := hWF.1
              rw [List.pairwise_append] at hpw
              exact hpw.1,
            List.pairwise_singleton _ _, ?_⟩
          intro y hy z hz
          simp at hz
          subst hz
          show y.location + y.length < a.location
          have hpw := hWF.1
          rw [List.pairwise_append] at hpw
          exact hpw.2.2 y hy a (by simp)
        · intro y hy
          rcases List.mem_append.mp hy with hyC | hyA
          · exact hWF.2 y (hmemC0 y hyC)
          · simp at hyA
            subst hyA
            refine ⟨by simp; omega, by simp; omega⟩
        · left
          simp
          omega
  · rw [if_neg hge]
    have hplt : p < l.length := by omega
    have hgetD : l.getD p ⟨0, 0⟩ = l.get ⟨p, hplt⟩ := getD_of_lt l p _ hplt
    set a := l.get ⟨p, hplt⟩ with hadef
    have hax : range.location < a.location + a.length := by
      have := hat hplt
      rw [hgetD] at this
      exact this
    obtain ⟨ha0, haU⟩ := hWF.2 a (List.get_mem l p hplt)
    have hdecomp : l.take p ++ a :: l.drop (p + 1) = l :=
      take_append_get_cons_drop l p hplt
    set A := l.take p with hAdef
    set B := l.drop (p + 1) with hBdef
    have hAlen : A.length = p := by
      rw [hAdef]
      simp
      omega
    have hWF2 : WFB (A ++ a :: B) := by rw [hdecomp]; exact hWF
    have hpw := hWF2.1
    have hbounds := hWF2.2
    rw [List.pairwise_append] at hpw
    have hpwA := hpw.1
    have hgapaB := (List.pairwise_cons.mp hpw.2.1).1
    have hpwB := (List.pairwise_cons.mp hpw.2.1).2
    have hcrossAB := hpw.2.2
    have hAle : ∀ c ∈ A, c.location + c.length ≤ range.location := by
      apply forall_mem_take_of_get
      intro q hq hqp
      exact hbefore q hq (by omega)
    have hBloc : ∀ y ∈ B, range.location < y.location := by
      intro y hy
      have := hgapaB y hy
      omega
    have hBb : ∀ y ∈ B, 0 < y.length ∧ y.location + y.length < U32 :=
      fun y hy => hbounds y (by simp [hy])
    have hAb : ∀ c ∈ A, 0 < c.length ∧ c.location + c.length < U32 :=
      fun c hc => hbounds c (by simp [hc])
    by_cases hcont : g_range_contains_location a range.location = true
    · have hcont' : a.location ≤ range.location ∧
          range.location < a.location + a.length := by
        unfold g_range_contains_location at hcont
        rw [Nat.mod_eq_of_lt haU] at hcont
        simpa using hcont
      rw [hgetD, if_pos hcont]
      have hins : arrInsert l (p + 1) range = A ++ a :: range :: B := by
        conv_lhs => rw [← hdecomp]
        rw [show A ++ a :: B = (A ++ [a]) ++ B by simp,
          show p + 1 = (A ++ [a]).length by simp [hAlen],
          arrInsert_append]
        simp
      rw [hins]
      have hlastA : ∀ c ∈ A.getLast?,
          c.location + c.length < range.location := by
        intro c hc
        have hcA : c ∈ A := List.mem_of_mem_getLast? hc
        have := hcrossAB c hcA a (by simp)
        omega
      rw [show p + 1 = A.length + 1 by omega]
      by_cases hcmp : g_range_get_max range ≤ a.location + a.length
      · rw [coalesceBackward_absorb A a range B range
          (fun c hc => (hAb c hc).2) haU (le_of_lt hcont'.2) hcmp hlastA]
        show WFB (coalesceForwardF range (A ++ a :: B).length (A ++ a :: B)
          A.length)
        refine coalesceForwardF_wf A range hbr _ B a (le_refl _) ?_ ?_
          hpwB hBb (fun c hc y hy => hcrossAB c hc y (by simp [hy])) hBloc ?_
        · rw [List.pairwise_append]
          refine ⟨hpwA, List.pairwise_singleton _ _, ?_⟩
          intro y hy z hz
          simp at hz
          subst hz
          exact hcrossAB y hy a (by simp)
        · intro y hy
          rcases List.mem_append.mp hy with hyA | hya
          · exact hAb y hyA
          · simp at hya
            subst hya
            exact ⟨ha0, haU⟩
        · rw [hgmr] at hcmp
          rcases Nat.eq_or_lt_of_le hcmp with heq2 | hlt2
          · exact Or.inl heq2.symm
          · exact Or.inr ⟨hlt2, fun y hy => by
              have := hgapaB y hy
              omega⟩
      · have hlt3 : a.location + a.length <
            range.location + range.length := by
          rw [hgmr] at hcmp
          omega
        rw [coalesceBackward_extend A a range B range
          (fun c hc => (hAb c hc).2) haU hbr (le_of_lt hcont'.2) hlt3 hlastA]
        show WFB (coalesceForwardF range
          (A ++ (⟨a.location,
            range.location + range.length - a.location⟩ : GRange) :: B).length
          (A ++ (⟨a.location,
            range.location + range.length - a.location⟩ : GRange) :: B)
          A.length)
        refine coalesceForwardF_wf A range hbr _ B
          ⟨a.location, range.location + range.length - a.location⟩
          (le_refl _) ?_ ?_ hpwB hBb
          (fun c hc y hy => hcrossAB c hc y (by simp [hy])) hBloc ?_
        · rw [List.pairwise_append]
          refine ⟨hpwA, List.pairwise_singleton _ _, ?_⟩
          intro y hy z hz
          simp at hz
          subst hz
          show y.location + y.length < a.location
          exact hcrossAB y hy a (by simp)
        · intro y hy
          rcases List.mem_append.mp hy with hyA | hya
          · exact hAb y hyA
          · simp at hya
            subst hya
            constructor
            · simp
              omega
            · simp
              omega
        · left
          simp
          omega
    · rw [hgetD, if_neg hcont]
      have hnc : range.location < a.location := by
        unfold g_range_contains_location at hcont
        rw [Nat.mod_eq_of_lt haU] at hcont
        simp at hcont
        omega
      have hins : arrInsert l p range = A ++ range :: a :: B := by
        conv_lhs => rw [← hdecomp]
        rw [show p = A.length from hAlen.symm, arrInsert_append]
      rw [hins, show p = A.length from hAlen.symm]
      have hBloc2 : ∀ y ∈ a :: B, range.location < y.location := by
        intro y hy
        rcases List.mem_cons.mp hy with rfl | hy2
        · exact hnc
        · have := hgapaB y hy2
          omega
      have hBb2 : ∀ y ∈ a :: B,
          0 < y.length ∧ y.location + y.length < U32 := by
        intro y hy
        rcases List.mem_cons.mp hy with rfl | hy2
        · exact ⟨ha0, haU⟩
        · exact hBb y hy2
      rcases List.eq_nil_or_concat' A with hA0 | ⟨A0, a2, hA2⟩
      · rw [hA0]
        have hbk : coalesceBackward ([] ++ range :: a :: B)
            ([] : List GRange).length range =
            ([] ++ range :: a :: B, 0) := rfl
        rw [hbk]
        exact coalesceForwardF_wf [] range hbr
          (([] ++ range :: a :: B).length) (a :: B) range (le_refl _)
          (List.pairwise_singleton _ _)
          (by
            intro y hy
            simp at hy
            subst hy
            exact ⟨hl0, hbr⟩)
          hpw.2.1 hBb2 (by simp) hBloc2 (Or.inl rfl)
      · have ha2A : a2 ∈ A := by rw [hA2]; simp
        have ha2le : a2.location + a2.length ≤ range.location := hAle a2 ha2A
        obtain ⟨ha20, ha2U⟩ := hAb a2 ha2A
        have hpwA0 : List.Pairwise
            (fun x y => x.location + x.length < y.location) (A0 ++ [a2]) := by
          rw [← hA2]
          exact hpwA
        have hA0lt : ∀ c ∈ A0, c.location + c.length < range.location := by
          intro c hc
          have hgap : c.location + c.length < a2.location := by
            rw [List.pairwise_append] at hpwA0
            exact hpwA0.2.2 c hc a2 (by simp)
          omega
        have hlastA0 : ∀ c ∈ A0.getLast?,
            c.location + c.length < range.location :=
          fun c hc => hA0lt c (List.mem_of_mem_getLast? hc)
        rw [hA2]
        rcases Nat.lt_or_ge (a2.location + a2.length) range.location with
          hstr | hadj
        · have hbk := coalesceBackward_stop (A0 ++ [a2]) range (a :: B) range
            (by
              intro c hc
              rw [← hA2] at hc
              exact (hAb c hc).2)
            (by
              intro c hc
              rw [List.getLast?_concat] at hc
              simp at hc
              subst hc
              exact hstr)
          rw [hbk]
          show WFB (coalesceForwardF range
            ((A0 ++ [a2]) ++ range :: a :: B).length
            ((A0 ++ [a2]) ++ range :: a :: B) (A0 ++ [a2]).length)
          refine coalesceForwardF_wf (A0 ++ [a2]) range hbr _ (a :: B) range
            (le_refl _) ?_ ?_ hpw.2.1 hBb2 ?_ hBloc2 (Or.inl rfl)
          · rw [List.pairwise_append]
            refine ⟨hpwA0, List.pairwise_singleton _ _, ?_⟩
            intro y hy z hz
            simp at hz
            subst hz
            rcases List.mem_append.mp hy with hyA0 | hya2
            · exact hA0lt y hyA0
            · simp at hya2
              subst hya2
              exact hstr
          · intro y hy
            rcases List.mem_append.mp hy with hyA | hya
            · rw [← hA2] at hyA
              exact hAb y hyA
            · simp at hya
              subst hya
              exact ⟨hl0, hbr⟩
          · intro c hc y hy
            rw [← hA2] at hc
            exact hcrossAB c hc y hy
        · have heq2 : a2.location + a2.length = range.location := by omega
          have hbk := coalesceBackward_extend A0 a2 range (a :: B) range
            (by
              intro c hc
              have : c ∈ A := by rw [hA2]; simp [hc]
              exact (hAb c this).2)
            ha2U hbr hadj (by omega) hlastA0
          rw [show (A0 ++ [a2]) ++ range :: a :: B =
              A0 ++ a2 :: range :: a :: B by simp,
            show (A0 ++ [a2]).length = A0.length + 1 by simp]
          rw [hbk]
          show WFB (coalesceForwardF range
            (A0 ++ (⟨a2.location,
              range.location + range.length - a2.location⟩ : GRange)
              :: a :: B).length
            (A0 ++ (⟨a2.location,
              range.location + range.length - a2.location⟩ : GRange)
              :: a :: B) A0.length)
          refine coalesceForwardF_wf A0 range hbr _ (a :: B)
            ⟨a2.location, range.location + range.length - a2.location⟩
            (le_refl _) ?_ ?_ hpw.2.1 hBb2 ?_ hBloc2 ?_
          · rw [List.pairwise_append]
            refine ⟨by
                rw [List.pairwise_append] at hpwA0
                exact hpwA0.1,
              List.pairwise_singleton _ _, ?_⟩
            intro y hy z hz
            simp at hz
            subst hz
            show y.location + y.length < a2.location
            rw [List.pairwise_append] at hpwA0
            exact hpwA0.2.2 y hy a2 (by simp)
          · intro y hy
            rcases List.mem_append.mp hy with hyA0 | hya2
            · have : y ∈ A := by rw [hA2]; simp [hyA0]
              exact hAb y this
            · simp at hya2
              subst hya2
              constructor
              · simp
                omega
              · simp
                omega
          · intro c hc y hy
            have : c ∈ A := by rw [hA2]; simp [hc]
            exact hcrossAB c this y hy
          · left
            simp
            omega

/-! ### Invariant preservation over operation sequences -/

theorem WFB_storeInvariant {l : List GRange} (h : WFB l) :
    storeInvariant l := by
  refine ⟨?_, h.1, fun r hr => (h.2 r hr).1⟩
  exact h.1.imp (by intro a b hab; omega)

theorem foldl_addIndex_WFB (indices : List Nat) :
    ∀ (l : List GRange), WFB l → (∀ i ∈ indices, i + 1 < U32) →
      WFB (indices.foldl (fun acc i => addRangeInternal acc ⟨i, 1⟩) l) := by
  induction indices with
  | nil => intro l h _; exact h
  | cons i t ih =>
      intro l h hb
      simp only [List.foldl_cons]
      exact ih _ (addRangeInternal_WFB l ⟨i, 1⟩ h
        (Or.inr (by simpa using hb i (by simp)))) (fun j hj => hb j (by simp [hj]))

theorem foldl_addRanges_WFB (rs : List GRange) :
    ∀ (l : List GRange), WFB l →
      (∀ r ∈ rs, r.length = 0 ∨ r.location + r.length < U32) →
      WFB (rs.foldl (fun acc r => addRangeInternal acc r) l) := by
  induction rs with
  | nil => intro l h _; exact h
  | cons r t ih =>
      intro l h hb
      simp only [List.foldl_cons]
      exact ih _ (addRangeInternal_WFB l r h (hb r (by simp)))
        (fun x hx => hb x (by simp [hx]))

theorem applyMutOp_WFB (s : GIndexSet) (op : MutOp) (h : WFB s.ranges)
    (hop : opBounded op) : WFB (applyMutOp s op).ranges := by
  cases op with
  | addIndex i =>
      simp only [applyMutOp, g_index_set_add_index]
      by_cases hm : s.is_mutable
      · rw [if_pos hm]
        exact addRangeInternal_WFB s.ranges ⟨i, 1⟩ h (Or.inr (by
          simpa using hop))
      · rw [if_neg hm]
        exact h
  | addIndexList indices =>
      simp only [applyMutOp, g_index_set_add_indicesv]
      by_cases hm : s.is_mutable
      · rw [if_pos hm]
        exact foldl_addIndex_WFB indices s.ranges h hop
      · rw [if_neg hm]
        exact h
  | addRange r =>
      simp only [applyMutOp, g_index_set_add_range]
      by_cases hm : s.is_mutable
      · rw [if_pos hm]
        exact addRangeInternal_WFB s.ranges r h hop
      · rw [if_neg hm]
        exact h
  | addOtherSet other =>
      simp only [applyMutOp, g_index_set_add_set]
      by_cases hm : s.is_mutable
      · rw [if_pos hm]
        exact foldl_addRanges_WFB other.ranges s.ranges h hop
      · rw [if_neg hm]
        exact h
  | removeIndex i =>
      exact h

theorem scanl_applyMutOp_WFB :
    ∀ (ops : List MutOp) (t : GIndexSet), WFB t.ranges →
      (∀ op ∈ ops, opBounded op) →
      ∀ s ∈ List.scanl applyMutOp t ops, WFB s.ranges := by
  intro ops
  induction ops with
  | nil =>
      intro t ht _ s hs
      simp [List.scanl] at hs
      subst hs
      exact ht
  | cons op ops ih =>
      intro t ht hops s hs
      rw [List.scanl_cons] at hs
      rcases List.mem_append.mp hs with hs1 | hs2
      · simp at hs1
        subst hs1
        exact ht
      · exact ih (applyMutOp t op)
          (applyMutOp_WFB t op ht (hops op (by simp)))
          (fun o ho => hops o (by simp [ho])) s hs2

/-- C1 (amended): starting from a freshly initialized, mutable, empty index
set, for every sequence of public mutation operations (add-index,
add-index-list, add-range, add-other-set, remove-index) in which every added
range keeps its guint upper bound below 2^32 (no unsigned wraparound), after
every operation the stored ranges are sorted in ascending order of location,
pairwise separated by a gap of at least one index (hence non-overlapping and
non-adjacent), and every stored range has positive length. -/
theorem g_index_set_invariant_preserved (ops : List MutOp)
    (hops : ∀ op ∈ ops, opBounded op) :
    ∀ s ∈ List.scanl applyMutOp g_index_set_init ops,
      storeInvariant s.ranges := by
  intro s hs
  refine WFB_storeInvariant (scanl_applyMutOp_WFB ops g_index_set_init
    ⟨List.Pairwise.nil, fun r hr => absurd hr (List.not_mem_nil r)⟩ hops s hs)

/-- C1 witness: a concrete bounded operation sequence; the final state after
add-index 5, add-range [0,3), remove-index 1 satisfies the invariant. -/
theorem g_index_set_invariant_preserved_witness :
    (∀ op ∈ ([.addIndex 5, .addRange ⟨0, 3⟩, .removeIndex 1] : List MutOp),
      opBounded op) ∧
    storeInvariant (applyMutOp (applyMutOp (applyMutOp g_index_set_init
      (.addIndex 5)) (.addRange ⟨0, 3⟩)) (.removeIndex 1)).ranges :=
  ⟨by decide,
    g_index_set_invariant_preserved
      [.addIndex 5, .addRange ⟨0, 3⟩, .removeIndex 1] (by decide) _
      (by decide)⟩

/-- C7 (amended): for every index set and every non-empty query range whose
upper bound stays at or below the sentinel, contains_range is true exactly
when the single stored range at the resolved position of the query location
contains both the query location and max(query)-1; and the concrete examples
on the set [0,10) hold as claimed. -/
theorem g_index_set_contains_range_characterization :
    (∀ (l : List GRange) (r : GRange), 0 < r.length →
      r.location + r.length ≤ G_INDEX_SET_NOT_FOUND →
      (g_index_set_contains_range l r = true ↔
        ∃ h : g_index_set_get_position l r.location < l.length,
          g_range_contains_location
            (l.get ⟨g_index_set_get_position l r.location, h⟩)
            r.location = true ∧
          g_range_contains_location
            (l.get ⟨g_index_set_get_position l r.location, h⟩)
            (r.location + r.length - 1) = true)) ∧
    g_index_set_contains_range [(⟨0, 10⟩ : GRange)] ⟨0, 5⟩ = true ∧
    g_index_set_contains_range [(⟨0, 10⟩ : GRange)] ⟨0, 11⟩ = false ∧
    g_index_set_contains_range [(⟨0, 10⟩ : GRange)] ⟨6, 2⟩ = true ∧
    g_index_set_contains_range [(⟨0, 10⟩ : GRange)] ⟨8, 4⟩ = false := by
  refine ⟨?_, by decide, by decide, by decide, by decide⟩
  intro l r h1 h2
  have h2l : r.location + r.length ≤ 2147483647 := h2
  have hgu : gusub G_INDEX_SET_NOT_FOUND r.length =
      G_INDEX_SET_NOT_FOUND - r.length := by
    show (2147483647 % 4294967296 + 4294967296 - r.length % 4294967296) %
      4294967296 = 2147483647 - r.length
    omega
  have hgm : g_range_get_max r = r.location + r.length := by
    show (r.location + r.length) % 4294967296 = r.location + r.length
    omega
  have hg1 : gusub (g_range_get_max r) 1 = r.location + r.length - 1 := by
    rw [hgm]
    show ((r.location + r.length) % 4294967296 + 4294967296 -
      1 % 4294967296) % 4294967296 = r.location + r.length - 1
    omega
  unfold g_index_set_contains_range
  rw [if_neg (by omega), hgu, if_neg (by omega), hg1]
  by_cases hemp : l.length = 0
  · rw [if_pos hemp]
    refine ⟨fun hco => absurd hco (by simp), ?_⟩
    rintro ⟨h, -⟩
    omega
  · rw [if_neg hemp]
    by_cases hp : g_index_set_get_position l r.location ≥ l.length
    · rw [if_pos hp]
      refine ⟨fun hco => absurd hco (by simp), ?_⟩
      rintro ⟨h, -⟩
      omega
    · rw [if_neg hp]
      have hplt : g_index_set_get_position l r.location < l.length := by
        omega
      rw [getD_of_lt l _ _ hplt, Bool.and_eq_true]
      exact ⟨fun ⟨hc1, hc2⟩ => ⟨hplt, hc1, hc2⟩,
        fun ⟨h, hc1, hc2⟩ => ⟨hc1, hc2⟩⟩

/-- C7 witness: the amended characterization applied to the set [0,10) and
query range [0,5). -/
theorem g_index_set_contains_range_characterization_witness :
    (0 : Nat) < 5 ∧ (0 + 5 : Nat) ≤ G_INDEX_SET_NOT_FOUND ∧
    g_index_set_contains_range [(⟨0, 10⟩ : GRange)] ⟨0, 5⟩ = true :=
  ⟨by decide, by decide,
    (g_index_set_contains_range_characterization.1 [⟨0, 10⟩] ⟨0, 5⟩
      (by decide) (by decide)).mpr ⟨by decide, by decide, by decide⟩⟩

theorem g_range_contains_location_iff {r : GRange}
    (h : r.location + r.length < U32) (x : Nat) :
    g_range_contains_location r x = true ↔
      (r.location ≤ x ∧ x < r.location + r.length) := by
  unfold g_range_contains_location
  rw [Nat.mod_eq_of_lt h]
  simp

/-- C8 (amended): greater-than computes the guint increment i+1 and then
behaves exactly as greater-or-equal (stated for i+1 below 2^32); on a
well-formed store, greater-or-equal of an index below the sentinel returns
the least contained index that is at least i, or the sentinel when none
exists; less-than of 0 is the sentinel and less-than i equals less-or-equal
of i-1; when the adjusted index resolves inside the store, less-or-equal
returns the greatest contained index that is at most i (the last index of
the preceding range when i falls in a gap), or the sentinel when none
exists; when it resolves past the last stored range the sentinel is
returned; and on the set {0,2,4,6,8}, greater_than(4) = 6 and less_than(0)
is the sentinel. -/
theorem g_index_set_get_index_characterization :
    (∀ (l : List GRange) (i : Nat), i + 1 < U32 →
      g_index_set_get_index l .greaterThan i =
        g_index_set_get_index l .greaterThanOrEqual (i + 1)) ∧
    (∀ (l : List GRange) (i : Nat), WFB l → i < G_INDEX_SET_NOT_FOUND →
      (g_index_set_get_index l .greaterThanOrEqual i =
          G_INDEX_SET_NOT_FOUND ∧
        ∀ x, memberOf l x → x < i) ∨
      (memberOf l (g_index_set_get_index l .greaterThanOrEqual i) ∧
        i ≤ g_index_set_get_index l .greaterThanOrEqual i ∧
        ∀ x, memberOf l x → i ≤ x →
          g_index_set_get_index l .greaterThanOrEqual i ≤ x)) ∧
    (∀ l : List GRange,
      g_index_set_get_index l .lessThan 0 = G_INDEX_SET_NOT_FOUND) ∧
    (∀ (l : List GRange) (i : Nat), 0 < i →
      g_index_set_get_index l .lessThan i =
        g_index_set_get_index l .lessThanOrEqual (i - 1)) ∧
    (∀ (l : List GRange) (i : Nat), WFB l →
      g_index_set_get_position l i < l.length →
      (g_index_set_get_index l .lessThanOrEqual i =
          G_INDEX_SET_NOT_FOUND ∧
        ∀ x, memberOf l x → i < x) ∨
      (memberOf l (g_index_set_get_index l .lessThanOrEqual i) ∧
        g_index_set_get_index l .lessThanOrEqual i ≤ i ∧
        ∀ x, memberOf l x → x ≤ i →
          x ≤ g_index_set_get_index l .lessThanOrEqual i)) ∧
    (∀ (l : List GRange) (i : Nat), l.length ≠ 0 →
      l.length ≤ g_index_set_get_position l i →
      g_index_set_get_index l .lessThanOrEqual i =
        G_INDEX_SET_NOT_FOUND) ∧
    (g_index_set_get_index
        (g_index_set_init_with_indicesv [0, 2, 4, 6, 8]).ranges
        .greaterThan 4 = 6 ∧
      g_index_set_get_index
        (g_index_set_init_with_indicesv [0, 2, 4, 6, 8]).ranges
        .lessThan 0 = G_INDEX_SET_NOT_FOUND) := by
  refine ⟨?_, ?_, ?_, ?_, ?_, ?_, by decide⟩
  · -- greater-than falls through to greater-or-equal of i+1
    intro l i hi
    simp only [g_index_set_get_index]
    by_cases hl : l.length = 0
    · rw [if_pos hl, if_pos hl]
    · rw [if_neg hl, if_neg hl]
      rw [Nat.mod_eq_of_lt hi]
      by_cases h2 : i + 1 = G_INDEX_SET_NOT_FOUND
      · rw [if_pos h2]
        unfold geBody
        rw [if_pos h2]
      · rw [if_neg h2]
  · -- greater-or-equal returns the least contained index at least i
    intro l i hWF hiNF
    obtain ⟨hple, hbefore, hat⟩ := getPosition_post l hWF i
    simp only [g_index_set_get_index]
    by_cases hl : l.length = 0
    · rw [if_pos hl]
      left
      refine ⟨rfl, ?_⟩
      rintro x ⟨r, hr, -, -⟩
      rw [List.length_eq_zero] at hl
      subst hl
      exact absurd hr (List.not_mem_nil r)
    · rw [if_neg hl]
      unfold geBody
      rw [if_neg (by omega : ¬ i = G_INDEX_SET_NOT_FOUND)]
      by_cases hp : g_index_set_get_position l i ≥ l.length
      · rw [if_pos hp]
        left
        refine ⟨rfl, ?_⟩
        rintro x ⟨r, hr, hx1, hx2⟩
        obtain ⟨⟨q, hq⟩, rfl⟩ := List.mem_iff_get.mp hr
        have := hbefore q hq (by omega)
        omega
      · rw [if_neg hp]
        have hplt : g_index_set_get_position l i < l.length := by omega
        rw [getD_of_lt l _ _ hplt]
        obtain ⟨ha0, haU⟩ :=
          hWF.2 _ (List.get_mem l (g_index_set_get_position l i) hplt)
        have hxat : i <
            (l.get ⟨g_index_set_get_position l i, hplt⟩).location +
            (l.get ⟨g_index_set_get_position l i, hplt⟩).length := by
          have := hat hplt
          rw [getD_of_lt l _ _ hplt] at this
          exact this
        by_cases hc : g_range_contains_location
            (l.get ⟨g_index_set_get_position l i, hplt⟩) i = true
        · rw [if_pos hc]
          rw [g_range_contains_location_iff haU] at hc
          right
          exact ⟨⟨_, List.get_mem l (g_index_set_get_position l i) hplt,
            hc.1, hxat⟩, le_refl i, fun x _ hix => hix⟩
        · rw [if_neg hc]
          rw [g_range_contains_location_iff haU] at hc
          have hc' : i <
              (l.get ⟨g_index_set_get_position l i, hplt⟩).location := by
            omega
          right
          refine ⟨⟨_, List.get_mem l (g_index_set_get_position l i) hplt,
            le_refl _, by omega⟩, by omega, ?_⟩
          rintro x ⟨r, hr, hx1, hx2⟩ hix
          obtain ⟨⟨q, hq⟩, rfl⟩ := List.mem_iff_get.mp hr
          rcases Nat.lt_trichotomy q (g_index_set_get_position l i) with
            hq1 | rfl | hq2
          · have := hbefore q hq hq1
            omega
          · exact hx1
          · have := WFB_get_rel hWF hplt hq hq2
            omega
  · -- less-than of 0 is the sentinel
    intro l
    simp only [g_index_set_get_index]
    by_cases hl : l.length = 0
    · rw [if_pos hl]
    · rw [if_neg hl]
      simp
  · -- less-than i falls through to less-or-equal of i-1
    intro l i hi
    simp only [g_index_set_get_index]
    by_cases hl : l.length = 0
    · rw [if_pos hl, if_pos hl]
    · rw [if_neg hl, if_neg hl, if_neg (by omega : ¬ i = 0)]
  · -- less-or-equal returns the greatest contained index at most i
    intro l i hWF hplt
    have hl : l.length ≠ 0 := by omega
    obtain ⟨hple, hbefore, hat⟩ := getPosition_post l hWF i
    simp only [g_index_set_get_index]
    rw [if_neg hl]
    unfold leBody
    rw [if_neg (by omega : ¬ g_index_set_get_position l i ≥ l.length)]
    rw [getD_of_lt l _ _ hplt]
    obtain ⟨ha0, haU⟩ :=
      hWF.2 _ (List.get_mem l (g_index_set_get_position l i) hplt)
    have hxat : i < (l.get ⟨g_index_set_get_position l i, hplt⟩).location +
        (l.get ⟨g_index_set_get_position l i, hplt⟩).length := by
      have := hat hplt
      rw [getD_of_lt l _ _ hplt] at this
      exact this
    by_cases hc : g_range_contains_location
        (l.get ⟨g_index_set_get_position l i, hplt⟩) i = true
    · rw [if_pos hc]
      rw [g_range_contains_location_iff haU] at hc
      right
      exact ⟨⟨_, List.get_mem l (g_index_set_get_position l i) hplt,
        hc.1, hxat⟩, le_refl i, fun x _ hxi => hxi⟩
    · rw [if_neg hc]
      rw [g_range_contains_location_iff haU] at hc
      have hc' : i <
          (l.get ⟨g_index_set_get_position l i, hplt⟩).location := by
        omega
      by_cases hp0 : g_index_set_get_position l i = 0
      · rw [if_pos hp0]
        left
        refine ⟨rfl, ?_⟩
        rintro x ⟨r, hr, hx1, hx2⟩
        obtain ⟨⟨q, hq⟩, rfl⟩ := List.mem_iff_get.mp hr
        rcases Nat.lt_trichotomy q (g_index_set_get_position l i) with
          hq1 | rfl | hq2
        · omega
        · omega
        · have := WFB_get_rel hWF hplt hq hq2
          omega
      · rw [if_neg hp0]
        have hq1lt : g_index_set_get_position l i - 1 < l.length := by omega
        rw [getD_of_lt l _ _ hq1lt]
        obtain ⟨hb0, hbU⟩ :=
          hWF.2 _ (List.get_mem l (g_index_set_get_position l i - 1) hq1lt)
        have hble :
            (l.get ⟨g_index_set_get_position l i - 1, hq1lt⟩).location +
            (l.get ⟨g_index_set_get_position l i - 1, hq1lt⟩).length ≤ i :=
          hbefore _ hq1lt (by omega)
        have hgub : gusub (g_range_get_max
            (l.get ⟨g_index_set_get_position l i - 1, hq1lt⟩)) 1 =
            (l.get ⟨g_index_set_get_position l i - 1, hq1lt⟩).location +
            (l.get ⟨g_index_set_get_position l i - 1, hq1lt⟩).length - 1 := by
          unfold g_range_get_max gusub U32
          have hb1 : 4294967296 = U32 := rfl
          omega
        rw [hgub]
        right
        refine ⟨⟨_, List.get_mem l (g_index_set_get_position l i - 1) hq1lt,
          by omega, by omega⟩, by omega, ?_⟩
        rintro x ⟨r, hr, hx1, hx2⟩ hxi
        obtain ⟨⟨q, hq⟩, rfl⟩ := List.mem_iff_get.mp hr
        rcases Nat.lt_trichotomy q (g_index_set_get_position l i - 1) with
          hq1 | rfl | hq2
        · have := WFB_get_rel hWF hq hq1lt hq1
          omega
        · omega
        · rcases Nat.lt_trichotomy q (g_index_set_get_position l i) with
            hq3 | rfl | hq3
          · omega
          · omega
          · have := WFB_get_rel hWF hplt hq hq3
            omega
  · -- past the last stored range the sentinel is returned
    intro l i hl hge
    simp only [g_index_set_get_index]
    rw [if_neg hl]
    unfold leBody
    rw [if_pos hge]

/-- C8 witness: the fall-through equation applied at a concrete set and
index. -/
theorem g_index_set_get_index_characterization_witness :
    (0 : Nat) + 1 < U32 ∧
    g_index_set_get_index [(⟨5, 3⟩ : GRange)] .greaterThan 0 =
      g_index_set_get_index [(⟨5, 3⟩ : GRange)] .greaterThanOrEqual 1 :=
  ⟨by decide,
    g_index_set_get_index_characterization.1 [⟨5, 3⟩] 0 (by decide)⟩

end Glib
